import Mathlib

/-!
Verification development for the terragrunt-mcp-server documentation cache
and retrieval engine (src/terragrunt/docs.ts, src/handlers/tools.ts,
src/index.ts), shallowly embedded in Lean.

Conventions of the embedding:
* JavaScript strings are Lean `String`; `String.prototype.includes`,
  `toLowerCase`, `endsWith`, `slice`, `substring` are modelled by the
  `js*` helpers below, operating on the character lists.
* The `Map<string, TerragruntDoc>` cache is an association list in
  insertion order (`mapSet` reproduces `Map.set` ordering semantics).
* Fallible external operations (fs, network fetch, JSON.parse, cheerio
  scraping) are oracles supplied by an `Env`; a TS expression that can
  throw is `Except`-valued, and a TS `try { .. } catch { .. }` is a
  `match` on that `Except`. The error value carries the mutable state at
  the throw point, so the catch arm resumes from exactly that state.
* `async`/`await` sequencing of a single JS event loop is modelled by
  explicit state passing; the suspension points of `refreshDocsCache`
  are materialised by `refreshReaderStates` for the concurrency claim.
-/

deriving instance DecidableEq for Except

/-- Characters of the pattern occur contiguously in the list: the model of
JavaScript `String.prototype.includes` on character lists. -/
def hasInfix (p : List Char) : List Char → Bool
  | [] => p.isEmpty
  | c :: rest => p.isPrefixOf (c :: rest) || hasInfix p rest

/-- Model of JavaScript `s.includes(pat)`. -/
def jsIncludes (s pat : String) : Bool :=
  hasInfix pat.toList s.toList

/-- Model of JavaScript `s.toLowerCase()`: case-fold every character
(via the character list, so that the definition reduces structurally). -/
def jsToLower (s : String) : String :=
  String.mk (s.toList.map Char.toLower)

/-- Model of JavaScript `s.endsWith(suffix)`. -/
def jsEndsWith (s suffix : String) : Bool :=
  suffix.toList.isSuffixOf s.toList

/-- Model of JavaScript `arr.slice(0, end)` for an integer `end`:
a negative `end` counts from the end of the array, clamped at 0;
an `end` beyond the length is clamped to the length.  Never throws. -/
def jsSliceTo (l : List α) (e : Int) : List α :=
  let n : Int := l.length
  let stop : Int := if e < 0 then max (n + e) 0 else min e n
  l.take stop.toNat

/-- Model of JavaScript `s.trim()`: strip whitespace from both ends
(via the character list, so that the definition reduces structurally). -/
def jsTrim (s : String) : String :=
  String.mk (((s.toList.dropWhile Char.isWhitespace).reverse.dropWhile Char.isWhitespace).reverse)

/-- Keep the first occurrence of each element, dropping later duplicates:
the model of `Array.from(new Set(xs))` (JS `Set` preserves insertion
order and keeps first occurrences). -/
def dedupFirstAux [DecidableEq α] (seen : List α) : List α → List α
  | [] => []
  | x :: xs => if x ∈ seen then dedupFirstAux seen xs else x :: dedupFirstAux (x :: seen) xs

def dedupFirst [DecidableEq α] (l : List α) : List α :=
  dedupFirstAux [] l

/-- Insert `x` into `l` before the first element `y` with `¬(cmp y x < 0)`.
Used by `jsSort`; keeps `x` before elements that compare equal to it,
which together with the recursion of `jsSort` gives a stable sort. -/
def jsInsert (cmp : α → α → Int) (x : α) : List α → List α
  | [] => [x]
  | y :: ys => if cmp y x < 0 then y :: jsInsert cmp x ys else x :: y :: ys

/-- Stable comparator sort: the model of `Array.prototype.sort(cmp)`
(guaranteed stable by the ECMAScript specification). -/
def jsSort (cmp : α → α → Int) : List α → List α
  | [] => []
  | x :: xs => jsInsert cmp x (jsSort cmp xs)

/-- `Map.set` on an insertion-ordered association list: an existing key is
updated in place keeping its position, a new key is appended. -/
def mapSet [DecidableEq κ] (m : List (κ × α)) (k : κ) (v : α) : List (κ × α) :=
  if m.any (fun p => p.1 = k) then
    m.map (fun p => if p.1 = k then (k, v) else p)
  else
    m ++ [(k, v)]

/-- The document record scraped from one documentation page
(interface `TerragruntDoc`, docs.ts lines 7-13). -/
structure TerragruntDoc where
  title : String
  url : String
  content : String
  /-- the `section` field of the TS interface (renamed: Lean keyword). -/
  sectionName : String
  lastUpdated : Option String := none
deriving Repr, DecidableEq

/-- Persisted cache metadata (interface `CacheMetadata`, docs.ts lines
15-18).  `lastFetchTime` is an epoch-milliseconds timestamp (the TS code
stores an ISO string and converts with `new Date(..).getTime()`). -/
structure CacheMetadata where
  lastFetchTime : Int
  docsCount : Nat
deriving Repr, DecidableEq

/-- A page reference produced by scraping the documentation index
(`getDocumentationPages` element type, docs.ts line 156). -/
structure PageRef where
  url : String
  title : String
  /-- the `section` field of the TS record (renamed: Lean keyword). -/
  sectionName : String
deriving Repr, DecidableEq

/-- The in-process documentation cache: `Map<string, TerragruntDoc>` as an
insertion-ordered association list keyed by url. -/
abbrev DocsCache := List (String × TerragruntDoc)

/-- Mutable state of a `TerragruntDocsManager` instance: the in-memory
cache and `lastFetchTime` (docs.ts lines 22-23).  `sourceCalls` is pure
instrumentation: it counts how many times the documentation index has
been fetched from the corpus source (the `fetch` at docs.ts line 157);
it influences nothing and exists to state the retry-count claim. -/
structure MState where
  docsCache : DocsCache
  lastFetchTime : Option Int
  sourceCalls : Nat
deriving Repr, DecidableEq

/-- `Array.from(this.docsCache.values())`: the documents of the cache in
insertion order. -/
def cacheDocs (m : DocsCache) : List TerragruntDoc :=
  m.map Prod.snd

/-- The external world as seen by one run of the manager: outcomes of
file-system access, JSON parsing, the documentation-index fetch+scrape,
and the per-page fetch+extract.  A `.error` models a thrown exception. -/
structure Env where
  /-- `fs.access(cacheFile)` resolves (the `.then/.catch` at docs.ts line
  52 turns the outcome into a boolean, so no exception escapes). -/
  accessDocsFile : Bool
  /-- `fs.access(metadataFile)` resolves (docs.ts line 53). -/
  accessMetaFile : Bool
  /-- `fs.readFile(metadataFile)` (docs.ts line 62); may throw. -/
  readMetaFile : Except Unit String
  /-- `JSON.parse` of the metadata file content (docs.ts line 63),
  composed with `new Date(..).getTime()`; may throw. -/
  parseMeta : String → Except Unit CacheMetadata
  /-- `fs.readFile(cacheFile)` (docs.ts line 73); may throw. -/
  readDocsFile : Except Unit String
  /-- `JSON.parse` of the docs file content (docs.ts line 74); may throw. -/
  parseDocs : String → Except Unit (List TerragruntDoc)
  /-- `Date.now()`, constant across one call. -/
  now : Int
  /-- Outcome of the n-th fetch+scrape of the documentation index
  (`getDocumentationPages`, docs.ts lines 156-208: the `fetch` of
  `/docs/` plus the cheerio link extraction and the core-docs padding);
  indexed by how many index fetches happened before, so a retrying
  implementation would consume successive indices.  May throw. -/
  pagesOutcome : Nat → Except Unit (List PageRef)
  /-- Outcome of the body of `fetchDocumentPage` for one page (docs.ts
  lines 218-267 before its catch): `.ok none` models the `return null`
  paths (non-2xx response, empty content), `.ok (some d)` a scraped
  document, `.error` a thrown exception. -/
  fetchDocOutcome : PageRef → Except Unit (Option TerragruntDoc)
  /-- `fs.writeFile(cacheFile, ..)` (docs.ts line 101); may throw. -/
  writeDocsOutcome : Except Unit Unit
  /-- `fs.writeFile(metadataFile, ..)` (docs.ts line 102); may throw. -/
  writeMetaOutcome : Except Unit Unit

/-- `24 * 60 * 60 * 1000` milliseconds (docs.ts line 24). -/
def cacheExpiry : Int := 24 * 60 * 60 * 1000

/-- The `try` block of `loadCacheFromDisk` (docs.ts lines 49-82): check
both cache files exist, read and parse the metadata, reject an expired
cache, read and parse the docs, then clear and repopulate the in-memory
cache.  Returns the new state and the boolean result; a `.error` is a
throw escaping to the catch, carrying the state at the throw point (all
mutations happen after the last fallible operation, so that state is
the entry state). -/
def loadCacheFromDiskTry (env : Env) (st : MState) : Except MState (MState × Bool) :=
  if !env.accessDocsFile || !env.accessMetaFile then .ok (st, false)
  else
    match env.readMetaFile with
    | .error _ => .error st
    | .ok metadataContent =>
      match env.parseMeta metadataContent with
      | .error _ => .error st
      | .ok metadata =>
        if env.now - metadata.lastFetchTime > cacheExpiry then .ok (st, false)
        else
          match env.readDocsFile with
          | .error _ => .error st
          | .ok docsContent =>
            match env.parseDocs docsContent with
            | .error _ => .error st
            | .ok docs =>
              .ok ({ st with
                      docsCache := docs.foldl (fun m d => mapSet m d.url d) []
                      lastFetchTime := some metadata.lastFetchTime }, true)

/-- `loadCacheFromDisk` (docs.ts lines 48-87): the try block with its
catch-all, which logs and returns `false` from the state at the throw. -/
def loadCacheFromDisk (env : Env) (st : MState) : MState × Bool :=
  match loadCacheFromDiskTry env st with
  | .ok r => r
  | .error stAtThrow => (stAtThrow, false)

/-- `shouldRefreshCache` (docs.ts lines 128-131). -/
def shouldRefreshCache (env : Env) (st : MState) : Bool :=
  match st.lastFetchTime with
  | none => true
  | some t => env.now - t > cacheExpiry

/-- One call of `getDocumentationPages` (docs.ts lines 156-208): a single
fetch of the documentation index with no retry; the instrumentation
counter advances whether or not the fetch throws. -/
def getDocumentationPages (env : Env) (st : MState) : Except MState (MState × List PageRef) :=
  let st' := { st with sourceCalls := st.sourceCalls + 1 }
  match env.pagesOutcome st.sourceCalls with
  | .ok pages => .ok (st', pages)
  | .error _ => .error st'

/-- `fetchDocumentPage` (docs.ts lines 218-267): its body may throw, but
the catch-all converts every exception into `null`. -/
def fetchDocumentPage (env : Env) (p : PageRef) : Option TerragruntDoc :=
  match env.fetchDocOutcome p with
  | .ok r => r
  | .error _ => none

/-- One iteration of the page loop of `refreshDocsCache` (docs.ts lines
139-144): fetch the page and, when a document came back, `Map.set` it. -/
def processPage (env : Env) (m : DocsCache) (p : PageRef) : DocsCache :=
  match fetchDocumentPage env p with
  | some d => mapSet m d.url d
  | none => m

/-- The cache produced by running the page loop from an empty map (the
`clear()` at docs.ts line 137 followed by the loop). -/
def processPages (env : Env) (pages : List PageRef) : DocsCache :=
  pages.foldl (processPage env) []

/-- `saveCacheToDisk` (docs.ts lines 89-109): both write outcomes are
swallowed by the catch-all; no manager state changes. -/
def saveCacheToDisk (env : Env) (st : MState) : MState :=
  match env.writeDocsOutcome, env.writeMetaOutcome with
  | _, _ => st

/-- `refreshDocsCache` (docs.ts lines 133-154): one call (no retry) of
`getDocumentationPages`; on success clear and repopulate the cache, set
`lastFetchTime`, best-effort persist; on a throw the catch-all logs and
keeps the state from the throw point. -/
def refreshDocsCache (env : Env) (st : MState) : MState :=
  match getDocumentationPages env st with
  | .error stAtThrow => stAtThrow
  | .ok (st1, pages) =>
      let cache := processPages env pages
      let st2 := { st1 with docsCache := cache, lastFetchTime := some env.now }
      saveCacheToDisk env st2

/-- `fetchLatestDocs` (docs.ts lines 111-126), in the exception monad: it
has no try/catch of its own, so any exception escaping a callee would
surface here as a `.error`. -/
def fetchLatestDocs (env : Env) (st : MState) : Except MState (MState × List TerragruntDoc) :=
  if st.docsCache.isEmpty then
    let (st1, loaded) := loadCacheFromDisk env st
    if loaded && !(shouldRefreshCache env st1) then
      .ok (st1, cacheDocs st1.docsCache)
    else
      if shouldRefreshCache env st1 then
        let st2 := refreshDocsCache env st1
        .ok (st2, cacheDocs st2.docsCache)
      else
        .ok (st1, cacheDocs st1.docsCache)
  else
    if shouldRefreshCache env st then
      let st2 := refreshDocsCache env st
      .ok (st2, cacheDocs st2.docsCache)
    else
      .ok (st, cacheDocs st.docsCache)

/-- Cache states a concurrent reader can observe while `refreshDocsCache`
is suspended at an await: during the index fetch (pre-refresh state
visible), then — once the page list arrived and the cache was cleared —
during each page fetch (partially repopulated cache visible), and after
the loop during the disk save (fully repopulated cache visible). -/
def loopStates (env : Env) (m : DocsCache) : List PageRef → List DocsCache
  | [] => [m]
  | p :: rest => m :: loopStates env (processPage env m p) rest

/-- Corpora observable by a concurrent `searchDocs` reader at the
suspension points of one `refreshDocsCache` call starting from `st`. -/
def refreshReaderStates (env : Env) (st : MState) : List (List TerragruntDoc) :=
  match env.pagesOutcome st.sourceCalls with
  | .error _ => [cacheDocs st.docsCache]
  | .ok pages => cacheDocs st.docsCache :: (loopStates env [] pages).map cacheDocs

/-- The comparator passed to `sort` in `searchDocs` (docs.ts lines
285-299): title matches first, then section matches, else tie.
`lq` is the already-lowercased query. -/
def searchCompare (lq : String) (a b : TerragruntDoc) : Int :=
  let aTitle := jsIncludes (jsToLower a.title) lq
  let bTitle := jsIncludes (jsToLower b.title) lq
  if aTitle && !bTitle then -1
  else if !aTitle && bTitle then 1
  else
    let aSection := jsIncludes (jsToLower a.sectionName) lq
    let bSection := jsIncludes (jsToLower b.sectionName) lq
    if aSection && !bSection then -1
    else if !aSection && bSection then 1
    else 0

/-- `searchDocs` (docs.ts lines 277-300) as a function of the corpus
enumeration produced by `fetchLatestDocs`: filter on a case-folded
substring of title, content or section, then stable-sort with
`searchCompare`. -/
def searchDocs (docs : List TerragruntDoc) (query : String) : List TerragruntDoc :=
  let lowercaseQuery := jsToLower query
  jsSort (searchCompare lowercaseQuery)
    (docs.filter (fun doc =>
      jsIncludes (jsToLower doc.title) lowercaseQuery ||
      jsIncludes (jsToLower doc.content) lowercaseQuery ||
      jsIncludes (jsToLower doc.sectionName) lowercaseQuery))

/-- Candidate filter of `getCliCommandHelp` (docs.ts lines 316-319):
reference section and a CLI-command url. -/
def cliCandidate (doc : TerragruntDoc) : Bool :=
  doc.sectionName == "reference" && jsIncludes doc.url "/cli/commands/"

/-- The first `find` predicate of `getCliCommandHelp` (docs.ts lines
322-326): exact title match, or the command as a url path segment, or
the command as a url suffix. -/
def cliExactPred (command : String) (doc : TerragruntDoc) : Bool :=
  jsToLower doc.title == jsToLower command ||
  jsIncludes (jsToLower doc.url) ("/" ++ jsToLower command ++ "/") ||
  jsEndsWith (jsToLower doc.url) ("/" ++ jsToLower command)

/-- The second `find` predicate of `getCliCommandHelp` (docs.ts lines
333-336): title substring, or the raw command plus a space inside the
lowercased content (note: the command itself is not lowercased there). -/
def cliPartialPred (command : String) (doc : TerragruntDoc) : Bool :=
  jsIncludes (jsToLower doc.title) (jsToLower command) ||
  jsIncludes (jsToLower doc.content) (command ++ " ")

/-- `getCliCommandHelp` (docs.ts lines 312-339) as a function of the
corpus enumeration: restrict to CLI candidates, take the first hit of
the combined exact predicate, otherwise the first hit of the combined
partial predicate, otherwise null. -/
def getCliCommandHelp (docs : List TerragruntDoc) (command : String) : Option TerragruntDoc :=
  match (docs.filter cliCandidate).find? (cliExactPred command) with
  | some exactMatch => some exactMatch
  | none => (docs.filter cliCandidate).find? (cliPartialPred command)

/-- `extractCodeBlocks` (docs.ts lines 384-407).  The six regex patterns
and the regex engine are external to the embedding: `patterns` supplies,
for each pattern, the list of raw matches `content.match(pattern)`
produces on a given content (empty list for a null result).  The
function itself trims each match, concatenates the per-pattern matches
in order, deduplicates via `Set` insertion order and caps at 5. -/
def extractCodeBlocks (patterns : List (String → List String)) (content : String) : List String :=
  let examples := patterns.foldl (fun acc pat => acc ++ ((pat content).map jsTrim)) []
  (dedupFirst examples).take 5

/-- `getCodeExamples` (docs.ts lines 362-382): filter the corpus on a
case-folded topic substring of title or content, cap to the first 10
matches, extract code blocks per document, and keep only documents whose
extraction is non-empty (the accumulation loop rendered as filterMap). -/
def getCodeExamples (patterns : List (String → List String))
    (docs : List TerragruntDoc) (topic : String) : List (TerragruntDoc × List String) :=
  let query := jsToLower topic
  let relevantDocs := docs.filter (fun doc =>
    jsIncludes (jsToLower doc.title) query ||
    jsIncludes (jsToLower doc.content) query)
  (relevantDocs.take 10).filterMap (fun doc =>
    if (extractCodeBlocks patterns doc.content).length > 0 then
      some (doc, extractCodeBlocks patterns doc.content)
    else none)

/-- One entry of the `results` array built by
`ToolHandler.searchTerragruntDocs` (tools.ts lines 170-178), with the
300-character snippet truncation. -/
structure SearchEntry where
  title : String
  url : String
  sectionName : String
  snippet : String
  lastUpdated : Option String
deriving Repr, DecidableEq

/-- The mapping applied to each sliced result (tools.ts lines 170-178). -/
def toSearchEntry (doc : TerragruntDoc) : SearchEntry :=
  { title := doc.title
    url := doc.url
    sectionName := doc.sectionName
    snippet := if doc.content.length > 300 then (doc.content.take 300) ++ "..." else doc.content
    lastUpdated := doc.lastUpdated }

/-- The response object of `ToolHandler.searchTerragruntDocs`
(tools.ts lines 168-181). -/
structure SearchResponse where
  query : String
  results : List SearchEntry
  total : Nat
  hasMore : Bool
deriving Repr, DecidableEq

/-- `ToolHandler.searchTerragruntDocs` (tools.ts lines 165-182) as a
function of the ranked match set `results` returned by
`resourceHandler.searchDocumentation` (= `searchDocs`, index.ts line
273): slice to `limit`, map to entries, report the pre-slice total. -/
def searchTerragruntDocs (results : List TerragruntDoc) (query : String) (limit : Int) : SearchResponse :=
  { query := query
    results := (jsSliceTo results limit).map toSearchEntry
    total := results.length
    hasMore := (results.length : Int) > limit }

/-- The argument object of `executeTool` for the search tool; `none`
models an absent (undefined) member. -/
structure ToolArgs where
  query : Option String := none
  limit : Option Int := none
deriving Repr, DecidableEq

/-- Results returned by `executeTool` (tools.ts lines 117-163).
`unmodeled` stands for the branches of the switch other than
`search_terragrunt_docs` and the unknown-tool default; no claim of this
development depends on them. -/
inductive ToolResult where
  | error (msg : String)
  | search (resp : SearchResponse)
  | unmodeled
deriving Repr, DecidableEq

/-- The tool names of the switch other than `search_terragrunt_docs`
(tools.ts lines 126-150). -/
def otherToolNames : List String :=
  ["get_terragrunt_sections", "get_section_docs", "get_cli_command_help",
   "get_hcl_config_reference", "get_code_examples"]

/-- `ToolHandler.executeTool` (tools.ts lines 117-163) for the search
tool, over the corpus enumeration `docs`: the guard `!args?.query`
treats an absent args object, an absent query member and the empty
string (the only falsy string) as missing, returning the error object;
otherwise the search runs with the limit defaulting to 5 when absent. -/
def executeTool (docs : List TerragruntDoc) (name : String) (args : Option ToolArgs) : ToolResult :=
  if name == "search_terragrunt_docs" then
    match args with
    | none => .error "query parameter is required"
    | some a =>
      match a.query with
      | none => .error "query parameter is required"
      | some q =>
        if q == "" then .error "query parameter is required"
        else .search (searchTerragruntDocs (searchDocs docs q) q (a.limit.getD 5))
  else if otherToolNames.contains name then .unmodeled
  else .error ("Unknown tool: " ++ name)

/-- The match predicate of `searchDocs` (docs.ts lines 281-284). -/
def searchMatches (lq : String) (d : TerragruntDoc) : Bool :=
  jsIncludes (jsToLower d.title) lq ||
  jsIncludes (jsToLower d.content) lq ||
  jsIncludes (jsToLower d.sectionName) lq

/-- Title containment as tested by the `searchDocs` comparator. -/
def titleHit (lq : String) (d : TerragruntDoc) : Bool :=
  jsIncludes (jsToLower d.title) lq

/-- Section containment as tested by the `searchDocs` comparator. -/
def sectionHit (lq : String) (d : TerragruntDoc) : Bool :=
  jsIncludes (jsToLower d.sectionName) lq

/-- Rank induced by the `searchDocs` comparator: 0 = title and section
hit, 1 = title hit only, 2 = section hit only, 3 = neither. -/
def searchRank (lq : String) (d : TerragruntDoc) : Nat :=
  (if titleHit lq d then 0 else 2) + (if sectionHit lq d then 0 else 1)

/-- The manager state at construction: empty cache, no fetch yet. -/
def emptyState : MState :=
  { docsCache := [], lastFetchTime := none, sourceCalls := 0 }

/-- A document held by a 25-hour-old disk snapshot. -/
def staleDoc : TerragruntDoc :=
  { title := "Quick Start"
    url := "/docs/getting-started/quick-start/"
    content := "terragrunt run-all plan"
    sectionName := "getting-started" }

/-- Environment of the staleness scenario: both cache files exist and
parse to a one-document snapshot whose `lastFetchTime` is 25 hours
before `now`, while the corpus source fails on every attempt. -/
def staleEnv : Env :=
  { accessDocsFile := true
    accessMetaFile := true
    readMetaFile := .ok "metadata.json"
    parseMeta := fun s =>
      if s == "metadata.json" then .ok { lastFetchTime := 0, docsCount := 1 } else .error ()
    readDocsFile := .ok "docs-cache.json"
    parseDocs := fun s =>
      if s == "docs-cache.json" then .ok [staleDoc] else .error ()
    now := 25 * 60 * 60 * 1000
    pagesOutcome := fun _ => .error ()
    fetchDocOutcome := fun _ => .error ()
    writeDocsOutcome := .ok ()
    writeMetaOutcome := .ok () }

/-- Environment of the total-failure scenario: no disk snapshot and a
corpus source that fails on every attempt. -/
def failEnv : Env :=
  { accessDocsFile := false
    accessMetaFile := false
    readMetaFile := .error ()
    parseMeta := fun _ => .error ()
    readDocsFile := .error ()
    parseDocs := fun _ => .error ()
    now := 0
    pagesOutcome := fun _ => .error ()
    fetchDocOutcome := fun _ => .error ()
    writeDocsOutcome := .error ()
    writeMetaOutcome := .error () }

/-- A document that contains no whitespace anywhere. -/
def noSpaceDoc : TerragruntDoc :=
  { title := "x", url := "u", content := "y", sectionName := "z" }

/-- CLI candidate whose url contains `/plan/` as a path segment but whose
title is not `plan`. -/
def cliDocUrlHit : TerragruntDoc :=
  { title := "Run All"
    url := "/docs/reference/cli/commands/plan/"
    content := ""
    sectionName := "reference" }

/-- CLI candidate whose title is exactly `plan` (the claimed tier-1
match) but whose url names a different command. -/
def cliDocTitleHit : TerragruntDoc :=
  { title := "plan"
    url := "/docs/reference/cli/commands/run-all/"
    content := ""
    sectionName := "reference" }

/-- The document in the cache before the concurrent-refresh scenario. -/
def oldGenDoc : TerragruntDoc :=
  { title := "Old Quick Start", url := "/docs/old/", content := "old", sectionName := "general" }

/-- First page of the new generation in the concurrent-refresh scenario. -/
def newPage1 : PageRef := { url := "/docs/new-one/", title := "New One", sectionName := "docs" }

/-- Second page of the new generation in the concurrent-refresh scenario. -/
def newPage2 : PageRef := { url := "/docs/new-two/", title := "New Two", sectionName := "docs" }

/-- First document of the new generation. -/
def newGenDoc1 : TerragruntDoc :=
  { title := "New One", url := "/docs/new-one/", content := "one", sectionName := "docs" }

/-- Second document of the new generation. -/
def newGenDoc2 : TerragruntDoc :=
  { title := "New Two", url := "/docs/new-two/", content := "two", sectionName := "docs" }

/-- Manager state before the concurrent-refresh scenario: one cached
document of the previous generation. -/
def preRefreshState : MState :=
  { docsCache := [(oldGenDoc.url, oldGenDoc)], lastFetchTime := some 0, sourceCalls := 0 }

/-- Environment of the concurrent-refresh scenario: the index fetch
succeeds with two pages and both page fetches succeed. -/
def refreshEnv : Env :=
  { accessDocsFile := false
    accessMetaFile := false
    readMetaFile := .error ()
    parseMeta := fun _ => .error ()
    readDocsFile := .error ()
    parseDocs := fun _ => .error ()
    now := 90000000
    pagesOutcome := fun n => if n == 0 then .ok [newPage1, newPage2] else .error ()
    fetchDocOutcome := fun p =>
      if p == newPage1 then .ok (some newGenDoc1)
      else if p == newPage2 then .ok (some newGenDoc2)
      else .ok none
    writeDocsOutcome := .ok ()
    writeMetaOutcome := .ok () }

theorem hasInfix_nil (l : List Char) : hasInfix [] l = true := by
  cases l <;> simp [hasInfix, List.isPrefixOf]

theorem jsIncludes_empty (s : String) : jsIncludes s "" = true :=
  hasInfix_nil s.toList

theorem jsToLower_empty : jsToLower "" = "" := by decide

theorem jsInsert_cons (cmp : α → α → Int) (x y : α) (ys : List α) :
    jsInsert cmp x (y :: ys) = if cmp y x < 0 then y :: jsInsert cmp x ys else x :: y :: ys := rfl

theorem jsInsert_of_forall_not_lt (cmp : α → α → Int) (x : α) (l : List α)
    (h : ∀ y ∈ l, ¬ cmp y x < 0) : jsInsert cmp x l = x :: l := by
  cases l with
  | nil => rfl
  | cons y ys =>
    rw [jsInsert_cons, if_neg (h y (List.mem_cons_self y ys))]

theorem jsInsert_append (cmp : α → α → Int) (x : α) (A B : List α)
    (h : ∀ y ∈ A, cmp y x < 0) :
    jsInsert cmp x (A ++ B) = A ++ jsInsert cmp x B := by
  induction A with
  | nil => rfl
  | cons a as ih =>
    rw [List.cons_append, jsInsert_cons, if_pos (h a (List.mem_cons_self a as)),
      ih (fun y hy => h y (List.mem_cons_of_mem a hy)), List.cons_append]

theorem jsSort_rank_buckets (f : α → Nat) (cmp : α → α → Int)
    (hcmp : ∀ a b, cmp a b < 0 ↔ f a < f b) (hub : ∀ a, f a < 4) (l : List α) :
    jsSort cmp l =
      (l.filter fun a => f a == 0) ++ (l.filter fun a => f a == 1) ++
      (l.filter fun a => f a == 2) ++ (l.filter fun a => f a == 3) := by
  induction l with
  | nil => rfl
  | cons x xs ih =>
    have hmem : ∀ i : Nat, ∀ y ∈ xs.filter (fun a => f a == i), f y = i := by
      intro i y hy
      have := (List.mem_filter.mp hy).2
      simpa using this
    have h4 := hub x
    unfold jsSort
    rw [ih]
    have hcase : f x = 0 ∨ f x = 1 ∨ f x = 2 ∨ f x = 3 := by omega
    rcases hcase with h0 | h1 | h2 | h3
    · -- f x = 0 : x goes in front of every bucket
      have hfront : ∀ y ∈ (xs.filter fun a => f a == 0) ++ (xs.filter fun a => f a == 1) ++
          (xs.filter fun a => f a == 2) ++ (xs.filter fun a => f a == 3), ¬ cmp y x < 0 := by
        intro y _
        rw [hcmp, h0]
        exact Nat.not_lt_zero _
      rw [jsInsert_of_forall_not_lt cmp x _ hfront]
      simp [List.filter_cons, h0]
    · -- f x = 1
      rw [List.append_assoc, List.append_assoc]
      rw [jsInsert_append cmp x _ _ (by
        intro y hy
        rw [hcmp, hmem 0 y hy, h1]
        exact Nat.zero_lt_one)]
      rw [jsInsert_of_forall_not_lt cmp x _ (by
        intro y hy
        rw [hcmp, h1]
        rcases List.mem_append.mp hy with hy1 | hy23
        · rw [hmem 1 y hy1]; exact Nat.lt_irrefl 1
        rcases List.mem_append.mp hy23 with hy2 | hy3
        · rw [hmem 2 y hy2]; omega
        · rw [hmem 3 y hy3]; omega)]
      simp [List.filter_cons, h1, List.append_assoc]
    · -- f x = 2
      rw [List.append_assoc, List.append_assoc, ← List.append_assoc]
      rw [jsInsert_append cmp x _ _ (by
        intro y hy
        rw [hcmp, h2]
        rcases List.mem_append.mp hy with hy0 | hy1
        · rw [hmem 0 y hy0]; omega
        · rw [hmem 1 y hy1]; omega)]
      rw [jsInsert_of_forall_not_lt cmp x _ (by
        intro y hy
        rw [hcmp, h2]
        rcases List.mem_append.mp hy with hy2 | hy3
        · rw [hmem 2 y hy2]; omega
        · rw [hmem 3 y hy3]; omega)]
      simp [List.filter_cons, h2, List.append_assoc]
    · -- f x = 3
      rw [List.append_assoc, List.append_assoc, ← List.append_assoc, ← List.append_assoc]
      rw [jsInsert_append cmp x _ _ (by
        intro y hy
        rw [hcmp, h3]
        rcases List.mem_append.mp hy with hy01 | hy2
        · rcases List.mem_append.mp hy01 with hy0 | hy1
          · rw [hmem 0 y hy0]; omega
          · rw [hmem 1 y hy1]; omega
        · rw [hmem 2 y hy2]; omega)]
      rw [jsInsert_of_forall_not_lt cmp x _ (by
        intro y hy
        rw [hcmp, h3, hmem 3 y hy]
        omega)]
      simp [List.filter_cons, h3, List.append_assoc]

theorem searchRank_lt_four (lq : String) (d : TerragruntDoc) : searchRank lq d < 4 := by
  unfold searchRank
  split <;> split <;> omega

theorem searchCompare_lt_iff (lq : String) (a b : TerragruntDoc) :
    searchCompare lq a b < 0 ↔ searchRank lq a < searchRank lq b := by
  unfold searchCompare searchRank titleHit sectionHit
  cases h1 : jsIncludes (jsToLower a.title) lq <;>
    cases h2 : jsIncludes (jsToLower b.title) lq <;>
      cases h3 : jsIncludes (jsToLower a.sectionName) lq <;>
        cases h4 : jsIncludes (jsToLower b.sectionName) lq <;>
          simp [h1, h2, h3, h4]

theorem searchRank_eq_zero (lq : String) (d : TerragruntDoc) :
    (searchRank lq d == 0) = (titleHit lq d && sectionHit lq d) := by
  unfold searchRank
  cases h1 : titleHit lq d <;> cases h2 : sectionHit lq d <;> simp [h1, h2]

theorem searchRank_eq_one (lq : String) (d : TerragruntDoc) :
    (searchRank lq d == 1) = (titleHit lq d && !sectionHit lq d) := by
  unfold searchRank
  cases h1 : titleHit lq d <;> cases h2 : sectionHit lq d <;> simp [h1, h2]

theorem searchRank_eq_two (lq : String) (d : TerragruntDoc) :
    (searchRank lq d == 2) = (!titleHit lq d && sectionHit lq d) := by
  unfold searchRank
  cases h1 : titleHit lq d <;> cases h2 : sectionHit lq d <;> simp [h1, h2]

theorem searchRank_eq_three (lq : String) (d : TerragruntDoc) :
    (searchRank lq d == 3) = (!titleHit lq d && !sectionHit lq d) := by
  unfold searchRank
  cases h1 : titleHit lq d <;> cases h2 : sectionHit lq d <;> simp [h1, h2]

/-- Full characterization of `searchDocs`: it returns exactly the
documents matching the case-folded query, grouped as four stable
buckets: title and section hits first, then title-only hits, then
section-only hits, then the remaining matches; each bucket keeps the
corpus enumeration order. -/
theorem searchDocs_eq_buckets (docs : List TerragruntDoc) (query : String) :
    searchDocs docs query =
      ((docs.filter (searchMatches (jsToLower query))).filter
        (fun d => titleHit (jsToLower query) d && sectionHit (jsToLower query) d)) ++
      ((docs.filter (searchMatches (jsToLower query))).filter
        (fun d => titleHit (jsToLower query) d && !sectionHit (jsToLower query) d)) ++
      ((docs.filter (searchMatches (jsToLower query))).filter
        (fun d => !titleHit (jsToLower query) d && sectionHit (jsToLower query) d)) ++
      ((docs.filter (searchMatches (jsToLower query))).filter
        (fun d => !titleHit (jsToLower query) d && !sectionHit (jsToLower query) d)) := by
  unfold searchDocs
  rw [jsSort_rank_buckets (searchRank (jsToLower query)) (searchCompare (jsToLower query))
    (fun a b => searchCompare_lt_iff (jsToLower query) a b)
    (fun a => searchRank_lt_four (jsToLower query) a)]
  simp only [searchRank_eq_zero, searchRank_eq_one, searchRank_eq_two, searchRank_eq_three]
  rfl

theorem loadCacheFromDiskTry_ok_sourceCalls (env : Env) (st : MState) (r : MState × Bool)
    (h : loadCacheFromDiskTry env st = .ok r) : r.1.sourceCalls = st.sourceCalls := by
  unfold loadCacheFromDiskTry at h
  repeat' split at h
  all_goals first
  | (injection h with h1; subst h1; rfl)
  | injection h

theorem loadCacheFromDiskTry_error_sourceCalls (env : Env) (st : MState) (s : MState)
    (h : loadCacheFromDiskTry env st = .error s) : s.sourceCalls = st.sourceCalls := by
  unfold loadCacheFromDiskTry at h
  repeat' split at h
  all_goals first
  | (injection h with h1; subst h1; rfl)
  | injection h

theorem loadCacheFromDisk_sourceCalls (env : Env) (st : MState) :
    (loadCacheFromDisk env st).1.sourceCalls = st.sourceCalls := by
  unfold loadCacheFromDisk
  cases htry : loadCacheFromDiskTry env st with
  | ok r => exact loadCacheFromDiskTry_ok_sourceCalls env st r htry
  | error s => exact loadCacheFromDiskTry_error_sourceCalls env st s htry

theorem refreshDocsCache_sourceCalls (env : Env) (st : MState) :
    (refreshDocsCache env st).sourceCalls = st.sourceCalls + 1 := by
  unfold refreshDocsCache getDocumentationPages saveCacheToDisk
  cases env.pagesOutcome st.sourceCalls <;>
    cases env.writeDocsOutcome <;> cases env.writeMetaOutcome <;> rfl

theorem loopStates_mem (env : Env) :
    ∀ (pages : List PageRef) (m c : DocsCache), c ∈ loopStates env m pages →
      ∃ n, c = (pages.take n).foldl (processPage env) m := by
  intro pages
  induction pages with
  | nil =>
    intro m c hc
    simp only [loopStates, List.mem_singleton] at hc
    exact ⟨0, by simp [hc]⟩
  | cons p rest ih =>
    intro m c hc
    simp only [loopStates, List.mem_cons] at hc
    rcases hc with rfl | hc
    · exact ⟨0, rfl⟩
    · rcases ih (processPage env m p) c hc with ⟨n, hn⟩
      exact ⟨n + 1, by simpa using hn⟩

theorem dedupFirstAux_nodup [DecidableEq α] (l : List α) :
    ∀ seen, (dedupFirstAux seen l).Nodup ∧ ∀ x ∈ dedupFirstAux seen l, x ∉ seen := by
  induction l with
  | nil =>
    intro seen
    simp [dedupFirstAux]
  | cons x xs ih =>
    intro seen
    unfold dedupFirstAux
    by_cases hx : x ∈ seen
    · rw [if_pos hx]
      exact ih seen
    · rw [if_neg hx]
      obtain ⟨hnd, hni⟩ := ih (x :: seen)
      refine ⟨List.nodup_cons.mpr ⟨fun hmem => (hni x hmem) (List.mem_cons_self x seen), hnd⟩, ?_⟩
      intro y hy
      rcases List.mem_cons.mp hy with rfl | hy2
      · exact hx
      · intro hseen
        exact (hni y hy2) (List.mem_cons_of_mem x hseen)

theorem dedupFirst_nodup [DecidableEq α] (l : List α) : (dedupFirst l).Nodup :=
  (dedupFirstAux_nodup l []).1

theorem map_fst_filterMap_sublist (g : α → Option (α × β))
    (hg : ∀ a p, g a = some p → p.1 = a) (l : List α) :
    List.Sublist ((l.filterMap g).map Prod.fst) l := by
  induction l with
  | nil => simp
  | cons a l ih =>
    cases hga : g a with
    | none =>
      simp only [List.filterMap_cons, hga]
      exact ih.cons a
    | some p =>
      simp only [List.filterMap_cons, hga, List.map_cons]
      rw [hg a p hga]
      exact ih.cons₂ a

/-- C1: for every combination of file-system, snapshot and network
outcomes and every starting cache state, `fetchLatestDocs` returns a
list of documents through the normal path: every exception raised by
the snapshot load, the snapshot save or the corpus source is caught
inside `loadCacheFromDisk`, `refreshDocsCache`, `saveCacheToDisk` or
`fetchDocumentPage`, and no `.error` ever escapes to the caller. -/
theorem fetchLatestDocs_never_throws (env : Env) (st : MState) :
    ∃ st2 docs, fetchLatestDocs env st = .ok (st2, docs) := by
  unfold fetchLatestDocs
  repeat' split
  all_goals exact ⟨_, _, rfl⟩

/-- C2 counterevidence: with a present, parseable disk snapshot holding
one document whose `lastFetchTime` is 25 hours old and a corpus source
that fails on every attempt, `fetchLatestDocs` returns the empty corpus
instead of the stale snapshot: `loadCacheFromDisk` discards any
snapshot older than the 24-hour TTL (docs.ts lines 66-70), and no
stale-snapshot or offline-bundle fallback exists in the code, contrary
to the repository README and wiki, which document the fallback chain
network, disk cache, stale cache, local fixture. -/
theorem fetchLatestDocs_stale_snapshot_dropped :
    fetchLatestDocs staleEnv emptyState =
      .ok ({ docsCache := [], lastFetchTime := none, sourceCalls := 1 }, []) ∧
    staleEnv.parseDocs "docs-cache.json" = .ok [staleDoc] ∧
    staleEnv.now - 0 > cacheExpiry := by
  refine ⟨by decide, rfl, by decide⟩

/-- C3 counterevidence: `refreshDocsCache` calls the corpus source at
most once per `fetchLatestDocs` call — there is no retry loop anywhere
in the code — and with a persistently failing source and no snapshot a
single call performs exactly one source attempt, not the three the
spec claims (the repository README and wiki likewise document three
attempts with exponential backoff, so the code contradicts its own
documentation). -/
theorem fetchLatestDocs_no_retry :
    (∀ env st st2 docs, fetchLatestDocs env st = .ok (st2, docs) →
      st2.sourceCalls ≤ st.sourceCalls + 1) ∧
    fetchLatestDocs failEnv emptyState =
      .ok ({ docsCache := [], lastFetchTime := none, sourceCalls := 1 }, []) := by
  constructor
  · intro env st st2 docs h
    unfold fetchLatestDocs at h
    split at h
    · split at h
      rename_i st1 loaded heq
      have hst1 : st1.sourceCalls = st.sourceCalls := by
        have hl := loadCacheFromDisk_sourceCalls env st
        rw [heq] at hl
        exact hl
      split at h
      · injection h with h1
        injection h1 with ha hb
        subst ha
        omega
      · split at h
        · injection h with h1
          injection h1 with ha hb
          subst ha
          have hr := refreshDocsCache_sourceCalls env st1
          omega
        · injection h with h1
          injection h1 with ha hb
          subst ha
          omega
    · split at h
      · injection h with h1
        injection h1 with ha hb
        subst ha
        have hr := refreshDocsCache_sourceCalls env st
        omega
      · injection h with h1
        injection h1 with ha hb
        subst ha
        omega
  · decide

/-- C3 witness: the single-attempt bound applied to the concrete
persistently-failing run. -/
theorem fetchLatestDocs_no_retry_witness :
    ({ docsCache := [], lastFetchTime := none, sourceCalls := 1 } : MState).sourceCalls ≤
      emptyState.sourceCalls + 1 :=
  fetchLatestDocs_no_retry.1 failEnv emptyState _ [] (by decide)

/-- C4: `searchDocs` returns exactly the documents whose title, content
or section contains the case-folded query, ordered as a stable
two-criteria sort: title hits before non-title hits, section hits
before non-section hits within title-tied groups, and corpus
enumeration order within each of the four resulting groups. -/
theorem searchDocs_match_and_ranking (docs : List TerragruntDoc) (query : String) :
    searchDocs docs query =
      ((docs.filter (searchMatches (jsToLower query))).filter
        (fun d => titleHit (jsToLower query) d && sectionHit (jsToLower query) d)) ++
      ((docs.filter (searchMatches (jsToLower query))).filter
        (fun d => titleHit (jsToLower query) d && !sectionHit (jsToLower query) d)) ++
      ((docs.filter (searchMatches (jsToLower query))).filter
        (fun d => !titleHit (jsToLower query) d && sectionHit (jsToLower query) d)) ++
      ((docs.filter (searchMatches (jsToLower query))).filter
        (fun d => !titleHit (jsToLower query) d && !sectionHit (jsToLower query) d)) :=
  searchDocs_eq_buckets docs query

/-- C5 counterexample: a whitespace-only query is not special-cased by
`searchDocs`: on a corpus whose single document contains no whitespace
in title, content or section, the query consisting of one space
returns the empty list, not the whole corpus. -/
theorem searchDocs_whitespace_query_filters :
    searchDocs [noSpaceDoc] " " = [] ∧ [noSpaceDoc].length = 1 := by
  exact ⟨by decide, rfl⟩

/-- C5 amended: the empty query matches and returns every document of
the corpus unfiltered, with result count equal to the corpus size;
whitespace-only queries receive no special treatment and simply filter
by literal substring containment. -/
theorem searchDocs_empty_query_returns_all (docs : List TerragruntDoc) :
    searchDocs docs "" = docs := by
  rw [searchDocs_eq_buckets, jsToLower_empty]
  simp [searchMatches, titleHit, sectionHit, jsIncludes_empty]

/-- C7: `getCodeExamples` keeps at most the first 10 matching documents
(in enumeration order, capped before extraction), gives each at most 5
deduplicated snippets exactly as extracted from its content, omits
candidates whose extraction is empty, and preserves corpus order. -/
theorem getCodeExamples_caps (patterns : List (String → List String))
    (docs : List TerragruntDoc) (topic : String) :
    (getCodeExamples patterns docs topic).length ≤ 10 ∧
    (∀ pr ∈ getCodeExamples patterns docs topic,
      pr.2.length ≤ 5 ∧ pr.2 ≠ [] ∧ pr.2.Nodup ∧
      pr.2 = extractCodeBlocks patterns pr.1.content ∧
      pr.1 ∈ (docs.filter (fun d =>
        jsIncludes (jsToLower d.title) (jsToLower topic) ||
        jsIncludes (jsToLower d.content) (jsToLower topic))).take 10) ∧
    List.Sublist ((getCodeExamples patterns docs topic).map Prod.fst) docs := by
  refine ⟨?_, ?_, ?_⟩
  · calc (getCodeExamples patterns docs topic).length
        ≤ ((docs.filter (fun d =>
            jsIncludes (jsToLower d.title) (jsToLower topic) ||
            jsIncludes (jsToLower d.content) (jsToLower topic))).take 10).length :=
          List.length_filterMap_le _ _
      _ ≤ 10 := by
          rw [List.length_take]
          exact Nat.min_le_left _ _
  · intro pr hpr
    unfold getCodeExamples at hpr
    rw [List.mem_filterMap] at hpr
    obtain ⟨a, ha, hfa⟩ := hpr
    split at hfa
    · rename_i hlen
      injection hfa with hpr2
      subst hpr2
      refine ⟨?_, ?_, ?_, rfl, ha⟩
      · unfold extractCodeBlocks
        rw [List.length_take]
        exact Nat.min_le_left _ _
      · intro hnil
        replace hnil : extractCodeBlocks patterns a.content = [] := hnil
        rw [hnil] at hlen
        simp at hlen
      · exact List.Sublist.nodup (List.take_sublist _ _) (dedupFirst_nodup _)
    · exact absurd hfa (by simp)
  · unfold getCodeExamples
    have hg : ∀ (a : TerragruntDoc) (p : TerragruntDoc × List String),
        (fun doc => if (extractCodeBlocks patterns doc.content).length > 0
          then some (doc, extractCodeBlocks patterns doc.content) else none) a = some p →
        p.1 = a := by
      intro a p hp
      replace hp : (if (extractCodeBlocks patterns a.content).length > 0 then
          some (a, extractCodeBlocks patterns a.content) else none) = some p := hp
      split at hp
      · injection hp with hp1
        rw [← hp1]
      · exact absurd hp (by simp)
    exact (map_fst_filterMap_sublist _ hg _).trans
      ((List.take_sublist 10 _).trans (List.filter_sublist docs))

/-- C7 witness: a concrete corpus where the theorem applies to an
actual result entry. -/
theorem getCodeExamples_caps_witness :
    (noSpaceDoc, ["y"]).2.length ≤ 5 ∧ (noSpaceDoc, ["y"]).2 ≠ [] ∧
      (noSpaceDoc, ["y"]).2.Nodup ∧
      (noSpaceDoc, ["y"]).2 = extractCodeBlocks [fun c => [c]] (noSpaceDoc, ["y"]).1.content ∧
      (noSpaceDoc, ["y"]).1 ∈ (([noSpaceDoc].filter (fun d =>
        jsIncludes (jsToLower d.title) (jsToLower "") ||
        jsIncludes (jsToLower d.content) (jsToLower "")))).take 10 :=
  (getCodeExamples_caps [fun c => [c]] [noSpaceDoc] "").2.1 (noSpaceDoc, ["y"]) (by decide)

/-- C8: at the search tool boundary, the reported total always equals
the pre-slice match count; a limit of 0 yields an empty results slice;
a limit at least the match count returns every match unpadded; and for
every integer limit (negative ones included) the call yields a
well-defined prefix of the mapped match list, so nothing throws. -/
theorem searchTerragruntDocs_limit_semantics (results : List TerragruntDoc)
    (query : String) (limit : Int) :
    (searchTerragruntDocs results query limit).total = results.length ∧
    (limit = 0 → (searchTerragruntDocs results query limit).results = []) ∧
    ((results.length : Int) ≤ limit →
      (searchTerragruntDocs results query limit).results = results.map toSearchEntry) ∧
    List.IsPrefix (searchTerragruntDocs results query limit).results
      (results.map toSearchEntry) := by
  refine ⟨rfl, ?_, ?_, ?_⟩
  · intro h0
    subst h0
    unfold searchTerragruntDocs jsSliceTo
    simp
  · intro hle
    have hnneg : ¬ ((limit : Int) < 0) := by
      have : (0 : Int) ≤ (results.length : Int) := Int.natCast_nonneg _
      omega
    unfold searchTerragruntDocs jsSliceTo
    simp only
    rw [if_neg hnneg, min_eq_right hle]
    simp
  · unfold searchTerragruntDocs jsSliceTo
    simp only
    rw [List.map_take]
    exact ⟨_, List.take_append_drop _ _⟩

/-- C8 witness: the limit semantics applied at concrete inputs. -/
theorem searchTerragruntDocs_limit_semantics_witness :
    (searchTerragruntDocs [noSpaceDoc] "q" 0).results = [] ∧
    (searchTerragruntDocs [noSpaceDoc] "q" 0).total = 1 ∧
    (searchTerragruntDocs [noSpaceDoc] "q" 5).results = [noSpaceDoc].map toSearchEntry :=
  ⟨(searchTerragruntDocs_limit_semantics [noSpaceDoc] "q" 0).2.1 rfl,
   (searchTerragruntDocs_limit_semantics [noSpaceDoc] "q" 0).1,
   (searchTerragruntDocs_limit_semantics [noSpaceDoc] "q" 5).2.2.1 (by decide)⟩

/-- C10: the falsy-query guard of `executeTool` returns the error object
for an empty-string query (and for an absent one), so the engine-level
empty-query behavior of `searchDocs` is unreachable through the public
search tool: every invocation either errors with the guard message or
runs the search with a provably non-empty query. -/
theorem executeTool_empty_query_guard :
    (∀ docs limit, executeTool docs "search_terragrunt_docs"
        (some { query := some "", limit := limit }) = .error "query parameter is required") ∧
    (∀ docs args, executeTool docs "search_terragrunt_docs" args =
        .error "query parameter is required" ∨
      ∃ q resp, args.bind ToolArgs.query = some q ∧ q ≠ "" ∧
        executeTool docs "search_terragrunt_docs" args = .search resp) := by
  constructor
  · intro docs limit
    rfl
  · intro docs args
    cases args with
    | none => exact Or.inl rfl
    | some a =>
      cases hq : a.query with
      | none =>
        left
        simp [executeTool, hq]
      | some q =>
        by_cases hqe : q == ""
        · left
          simp [executeTool, hq, hqe]
        · have hfq : (q == "") = false := by
            cases hh : (q == "") with
            | false => rfl
            | true => exact absurd hh hqe
          right
          refine ⟨q, searchTerragruntDocs (searchDocs docs q) q (a.limit.getD 5), ?_, ?_, ?_⟩
          · simp [hq]
          · intro hq0
            apply hqe
            rw [hq0]
            rfl
          · simp [executeTool, hq, hfq]

/-- C6 counterexample: the four matching tiers are not applied strictly
in order.  The code runs two combined passes (tiers 1-2 in one `find`,
tiers 3-4 in another), so a document whose url contains the command as
a path segment (tier 2) and that precedes an exact-title match (tier 1)
in enumeration order wins, although the claimed strict tiering would
return the exact-title document. -/
theorem getCliCommandHelp_url_beats_exact_title :
    getCliCommandHelp [cliDocUrlHit, cliDocTitleHit] "plan" = some cliDocUrlHit ∧
    jsToLower cliDocTitleHit.title = jsToLower "plan" ∧
    jsToLower cliDocUrlHit.title ≠ jsToLower "plan" ∧
    cliCandidate cliDocTitleHit = true := by
  refine ⟨by decide, by decide, by decide, by decide⟩

/-- C6 amended: candidates are restricted to the reference section with
a `/cli/commands/` url; matching is two passes with the first hit in
enumeration order winning within each pass — pass one is the
disjunction of exact title, url path segment and url suffix, pass two
the disjunction of title substring and content substring of the
command plus a trailing space — and null is returned exactly when no
candidate satisfies either pass. -/
theorem getCliCommandHelp_two_pass (docs : List TerragruntDoc) (command : String) :
    (∀ d, getCliCommandHelp docs command = some d ↔
      ((cliExactPred command d = true ∧ ∃ l1 l2,
          docs.filter cliCandidate = l1 ++ d :: l2 ∧
          ∀ y ∈ l1, cliExactPred command y = false) ∨
        ((∀ y ∈ docs.filter cliCandidate, cliExactPred command y = false) ∧
          cliPartialPred command d = true ∧ ∃ l1 l2,
          docs.filter cliCandidate = l1 ++ d :: l2 ∧
          ∀ y ∈ l1, cliPartialPred command y = false))) ∧
    (getCliCommandHelp docs command = none ↔
      ∀ y ∈ docs.filter cliCandidate,
        cliExactPred command y = false ∧ cliPartialPred command y = false) := by
  constructor
  · intro d
    unfold getCliCommandHelp
    cases hf : (docs.filter cliCandidate).find? (cliExactPred command) with
    | some e =>
      show some e = some d ↔ _
      constructor
      · intro h
        injection h with he
        subst he
        left
        obtain ⟨hpe, as, bs, hsplit, hall⟩ := List.find?_eq_some.mp hf
        exact ⟨hpe, as, bs, hsplit, fun y hy => by simpa using hall y hy⟩
      · intro h
        rcases h with ⟨hpd, l1, l2, hsplit, hl1⟩ | ⟨hall, _⟩
        · have hd : (docs.filter cliCandidate).find? (cliExactPred command) = some d :=
            List.find?_eq_some.mpr ⟨hpd, l1, l2, hsplit, fun y hy => by simpa using hl1 y hy⟩
          rw [hf] at hd
          exact hd
        · have he := List.mem_of_find?_eq_some hf
          have hpe := List.find?_some hf
          rw [hall e he] at hpe
          exact absurd hpe (by simp)
    | none =>
      show (docs.filter cliCandidate).find? (cliPartialPred command) = some d ↔ _
      have hnone := List.find?_eq_none.mp hf
      constructor
      · intro h
        right
        obtain ⟨hpd, as, bs, hsplit, hall⟩ := List.find?_eq_some.mp h
        refine ⟨fun y hy => ?_, hpd, as, bs, hsplit, fun y hy => by simpa using hall y hy⟩
        have := hnone y hy
        simpa using this
      · intro h
        rcases h with ⟨hpd, l1, l2, hsplit, hl1⟩ | ⟨hall, hpd, l1, l2, hsplit, hl1⟩
        · have hd_mem : d ∈ docs.filter cliCandidate := by
            rw [hsplit]
            exact List.mem_append_right l1 (List.mem_cons_self d l2)
          have := hnone d hd_mem
          rw [hpd] at this
          exact absurd rfl this
        · exact List.find?_eq_some.mpr ⟨hpd, l1, l2, hsplit, fun y hy => by simpa using hl1 y hy⟩
  · unfold getCliCommandHelp
    cases hf : (docs.filter cliCandidate).find? (cliExactPred command) with
    | some e =>
      show some e = none ↔ _
      constructor
      · intro h
        exact absurd h (by simp)
      · intro hall
        have he := List.mem_of_find?_eq_some hf
        have hpe := List.find?_some hf
        rw [(hall e he).1] at hpe
        exact absurd hpe (by simp)
    | none =>
      show (docs.filter cliCandidate).find? (cliPartialPred command) = none ↔ _
      have hnone := List.find?_eq_none.mp hf
      rw [List.find?_eq_none]
      constructor
      · intro hpall y hy
        refine ⟨?_, ?_⟩
        · have := hnone y hy
          simpa using this
        · have := hpall y hy
          simpa using this
      · intro hall y hy
        rw [(hall y hy).2]
        simp

/-- C9 counterexample: during a refresh that replaces a one-document
corpus by a two-document corpus, a reader at the suspension point after
the first page was processed observes the one-element new-generation
corpus, which is neither the complete pre-refresh corpus nor the
complete post-refresh corpus: the clear-then-repopulate loop spans
await points, so the replacement is not atomic. -/
theorem refreshDocsCache_partial_state_visible :
    cacheDocs preRefreshState.docsCache = [oldGenDoc] ∧
    cacheDocs (refreshDocsCache refreshEnv preRefreshState).docsCache =
      [newGenDoc1, newGenDoc2] ∧
    [newGenDoc1] ∈ refreshReaderStates refreshEnv preRefreshState ∧
    [newGenDoc1] ≠ [oldGenDoc] ∧
    [newGenDoc1] ≠ [newGenDoc1, newGenDoc2] := by
  refine ⟨rfl, by decide, by decide, by decide, by decide⟩

/-- C9 amended: a concurrent reader during an in-flight refresh observes
either the complete pre-refresh corpus or the population of some prefix
of the newly fetched pages (possibly empty, possibly partial) — never a
mixture of the two generations, but not necessarily a complete corpus
either. -/
theorem refreshReaderStates_pre_or_prefix (env : Env) (st : MState) :
    ∀ c ∈ refreshReaderStates env st,
      c = cacheDocs st.docsCache ∨
      ∃ pages n, env.pagesOutcome st.sourceCalls = .ok pages ∧
        c = cacheDocs (processPages env (pages.take n)) := by
  intro c hc
  unfold refreshReaderStates at hc
  cases hp : env.pagesOutcome st.sourceCalls with
  | error e =>
    rw [hp] at hc
    simp only [List.mem_singleton] at hc
    exact Or.inl hc
  | ok pages =>
    rw [hp] at hc
    simp only [List.mem_cons, List.mem_map] at hc
    rcases hc with rfl | ⟨m, hm, rfl⟩
    · exact Or.inl rfl
    · right
      obtain ⟨n, hn⟩ := loopStates_mem env pages [] m hm
      exact ⟨pages, n, rfl, by rw [hn]; rfl⟩

/-- C9 witness: the amended characterization applied to the observable
partial state of the concrete scenario. -/
theorem refreshReaderStates_pre_or_prefix_witness :
    [newGenDoc1] = cacheDocs preRefreshState.docsCache ∨
    ∃ pages n, refreshEnv.pagesOutcome preRefreshState.sourceCalls = .ok pages ∧
      [newGenDoc1] = cacheDocs (processPages refreshEnv (pages.take n)) :=
  refreshReaderStates_pre_or_prefix refreshEnv preRefreshState [newGenDoc1] (by decide)
